import Mathlib

/-!
Shallow embedding of the book search engine in `src/app.py`.

Modelling conventions, used uniformly below:
* a Python string is a `List Char` (`PyStr`);
* a Python dict is an association list in key-insertion order, with unique
  keys (the operations below preserve uniqueness exactly as dicts do);
* Python floats are exact rationals, and `math.log` is passed in as a
  function parameter `lg : ℚ → ℚ` (none of the verified properties depend
  on analytic facts about the logarithm);
* `list(set(xs))` is modelled as `firstDedup xs`; the set's iteration order
  is unspecified in Python, and every property stated about such a result
  is insensitive to the order;
* a `KeyError`-raising dict subscript is modelled as an `Option`-valued
  lookup, so a function that can raise returns `Option _` and a raise is
  `none`.
-/

abbrev PyStr := List Char

/-- Whitespace test backing Python `str.split()` (the whitespace characters
that can occur in this pipeline's data). -/
def isWs (c : Char) : Bool := c = ' ' || c = '\t' || c = '\n' || c = '\r'

/-- Accumulator worker for `pySplit`; `cur` holds the reversed characters of
the token being read. -/
def pySplitGo (cur : PyStr) : PyStr → List PyStr
  | [] => if cur.isEmpty then [] else [cur.reverse]
  | c :: cs =>
    if isWs c then
      if cur.isEmpty then pySplitGo [] cs else cur.reverse :: pySplitGo [] cs
    else
      pySplitGo (c :: cur) cs

/-- Python `s.split()` with no argument: split on runs of whitespace,
producing no empty tokens. -/
def pySplit (s : PyStr) : List PyStr := pySplitGo [] s

/-- Python `s.lower()` (ASCII case folding, which is all this corpus uses). -/
def pyLower (s : PyStr) : PyStr := s.map Char.toLower

/-- Worker for `pyCount`; `skip` is the number of characters still covered by
the previous (non-overlapping) match. -/
def pyCountGo (pat : PyStr) : PyStr → ℕ → ℕ
  | [], _ => 0
  | _ :: s, (k + 1) => pyCountGo pat s k
  | c :: s, 0 =>
    if !pat.isEmpty && pat.isPrefixOf (c :: s) then pyCountGo pat s (pat.length - 1) + 1
    else pyCountGo pat s 0

/-- Python `s.count(pat)`: the number of non-overlapping occurrences of `pat`
as a substring of `s`, scanning left to right. -/
def pyCount (pat s : PyStr) : ℕ := pyCountGo pat s 0

/-- First-match association lookup; models `d[k]` (as `Option`) and
`k in d` (as `isSome`) on dicts, whose keys are unique. -/
def dlookup {κ ν : Type} [DecidableEq κ] (m : List (κ × ν)) (k : κ) : Option ν :=
  match m with
  | [] => none
  | e :: m => if e.1 = k then some e.2 else dlookup m k

/-- Python dict assignment `d[k] = v`: replace in place if the key exists,
otherwise append (dicts keep insertion order). -/
def dictInsert {κ ν : Type} [DecidableEq κ] (m : List (κ × ν)) (k : κ) (v : ν) :
    List (κ × ν) :=
  match m with
  | [] => [(k, v)]
  | e :: m => if e.1 = k then (k, v) :: m else e :: dictInsert m k v

/-- `defaultdict(list)` subscript-and-append, `d[k].append(i)`: a missing key
is created with `[]` (at the end, in insertion order) and then extended. -/
def ddAppend {κ : Type} [DecidableEq κ] (m : List (κ × List ℤ)) (k : κ) (i : ℤ) :
    List (κ × List ℤ) :=
  match m with
  | [] => [(k, [i])]
  | e :: m => if e.1 = k then (e.1, e.2 ++ [i]) :: m else e :: ddAppend m k i

/-- Duplicate removal keeping the first occurrence of each element, in
order: the key order of a Python dict filled by repeated assignment, and
the canonical order chosen here for `set(...)` iteration (whose real order
is unspecified; no property stated below observes it). -/
def firstDedup {α : Type} [DecidableEq α] : List α → List α
  | [] => []
  | a :: l => a :: (firstDedup l).filter fun b => decide ¬b = a

/-- The three field-name string literals used as the second index-key
component in `src/app.py` (`'title'`, `'author'`, `'description'`). -/
inductive FieldName
  | title
  | author
  | description
deriving DecidableEq

/-- One corpus record (`class Document`). `term_frequencies` is the table the
constructor initialises to `{}` and `compute_term_frequencies` populates. -/
structure Document where
  doc_id : ℤ
  title : PyStr
  author : PyStr
  description : PyStr
  term_frequencies : List (PyStr × ℚ) := []
deriving DecidableEq

/-- `self.text = ' '.join([title, author, description])`. -/
def Document.text (d : Document) : PyStr :=
  d.title ++ ' ' :: (d.author ++ ' ' :: d.description)

/-- `self.length = len(self.text.split())`. -/
def Document.length (d : Document) : ℕ := (pySplit d.text).length

/-- `Document.compute_term_frequencies` (its `index` argument is unused in
the source and omitted here).  The Python `set(self.text.split())` is
iterated in first-occurrence order here; no stated property depends on
that order.  Note that the source computes `self.text.count(term)`, a
substring count, not a token count. -/
def Document.compute_term_frequencies (d : Document) : List (PyStr × ℚ) :=
  (firstDedup (pySplit d.text)).map fun t => (t, (pyCount t d.text : ℚ) / (d.length : ℚ))

/-- The inverted index: `self.index`, a `defaultdict(list)` keyed by
`(term, field)`, kept in key-insertion order. -/
abbrev Index := List ((PyStr × FieldName) × List ℤ)

/-- `InvertedIndex.add_tokens_to_index`. -/
def add_tokens_to_index (idx : Index) (book_id : ℤ) (tokens : List PyStr)
    (field : FieldName) : Index :=
  tokens.foldl (fun idx t => ddAppend idx (t, field) book_id) idx

/-- The body of the `InvertedIndex.index_data` loop for one document:
title, then author, then description. -/
def index_doc_step (idx : Index) (doc : Document) : Index :=
  add_tokens_to_index
    (add_tokens_to_index
      (add_tokens_to_index idx doc.doc_id (pySplit doc.title) .title)
      doc.doc_id (pySplit doc.author) .author)
    doc.doc_id (pySplit doc.description) .description

/-- `InvertedIndex.index_data`: each document in turn. -/
def index_data (documents : List Document) : Index :=
  documents.foldl index_doc_step []

/-- `self.index.get((token, field), [])`. -/
def indexGetD (idx : Index) (k : PyStr × FieldName) : List ℤ :=
  (dlookup idx k).getD []

/-- `InvertedIndex.search`: per query token, the three field lookups are
concatenated; `list(set(matching_book_ids))` is the final deduplication. -/
def inv_search (idx : Index) (query : PyStr) : List ℤ :=
  firstDedup ((pySplit query).flatMap fun t =>
    indexGetD idx (t, .title) ++ indexGetD idx (t, .author) ++
      indexGetD idx (t, .description))

/-- `dict.get(key, default)` with the dictionary state threaded explicitly:
it returns the value and the *unchanged* dictionary (contrast `ddAppend`,
the `defaultdict` subscript, which inserts missing keys). -/
def dictGetS (idx : Index) (k : PyStr × FieldName) : List ℤ × Index :=
  (indexGetD idx k, idx)

/-- One iteration of the `InvertedIndex.search` loop with the index state
threaded through the three dictionary reads. -/
def inv_search_step (st : List ℤ × Index) (t : PyStr) : List ℤ × Index :=
  let p1 := dictGetS st.2 (t, .title)
  let p2 := dictGetS p1.2 (t, .author)
  let p3 := dictGetS p2.2 (t, .description)
  (st.1 ++ (p1.1 ++ p2.1 ++ p3.1), p3.2)

/-- `InvertedIndex.search` with the index state threaded through every
dictionary read, to state what the call does to the index. -/
def inv_search_st (idx : Index) (query : PyStr) : List ℤ × Index :=
  let r := (pySplit query).foldl inv_search_step ([], idx)
  (firstDedup r.1, r.2)

/-- `class SearchEngine` state after `__init__`. -/
structure SearchEngine where
  documents : List Document
  index : Index
  idf_scores : List (PyStr × ℚ)
deriving DecidableEq

/-- `SearchEngine.compute_idf_scores`; `lg` stands for `math.log`. -/
def compute_idf_scores (lg : ℚ → ℚ) (num_docs : ℕ) (idx : Index) :
    List (PyStr × ℚ) :=
  idx.foldl
    (fun m e => dictInsert m (pyLower e.1.1) (lg ((num_docs : ℚ) / (1 + (e.2.length : ℚ)))))
    []

/-- `SearchEngine.__init__`: build the index from the documents, then the
IDF table from the index. -/
def mkSearchEngine (lg : ℚ → ℚ) (documents : List Document) : SearchEngine :=
  let idx := index_data documents
  { documents := documents
    index := idx
    idf_scores := compute_idf_scores lg documents.length idx }

/-- `query_vector[term] = query_terms.count(term)`, keys in first-occurrence
order as a dict keeps them. -/
def build_query_vector (query_terms : List PyStr) : List (PyStr × ℕ) :=
  (firstDedup query_terms).map fun t => (t, query_terms.count t)

/-- The inner loop of `SearchEngine.search` for one document: `none` models
a `KeyError` raised by the unguarded `self.idf_scores[term]` subscript. -/
def doc_score (idf : List (PyStr × ℚ)) (d : Document) (qv : List (PyStr × ℕ)) :
    Option ℚ :=
  qv.foldl
    (fun acc tc =>
      acc.bind fun s =>
        match dlookup d.term_frequencies tc.1 with
        | none => some s
        | some tf => (dlookup idf tc.1).map fun idfv => s + tf * idfv * (1 + (tc.2 : ℚ)))
    (some 0)

/-- The document loop of `SearchEngine.search`, building the unsorted
ranking. -/
def rank_docs (idf : List (PyStr × ℚ)) (qv : List (PyStr × ℕ)) :
    List Document → Option (List (ℤ × ℚ))
  | [] => some []
  | d :: ds =>
    match doc_score idf d qv with
    | none => none
    | some s => (rank_docs idf qv ds).map fun r => (d.doc_id, s) :: r

/-- One insertion step of the stable score-descending sort: the new element
goes after every element of strictly greater score and before the first
element of smaller-or-equal score. -/
def insertRanked (x : ℤ × ℚ) : List (ℤ × ℚ) → List (ℤ × ℚ)
  | [] => [x]
  | y :: ys => if x.2 < y.2 then y :: insertRanked x ys else x :: y :: ys

/-- `ranking.sort(key=lambda x: x[1], reverse=True)`: Python's sort is
stable, and with `reverse=True` elements with equal keys keep their original
relative order; any stable score-descending sort is extensionally equal to
it, and this one inserts each element before the ties that followed it. -/
def sortRanked : List (ℤ × ℚ) → List (ℤ × ℚ)
  | [] => []
  | x :: xs => insertRanked x (sortRanked xs)

/-- `SearchEngine.search`. -/
def SearchEngine.search (e : SearchEngine) (query : PyStr) :
    Option (List (ℤ × ℚ)) :=
  let qv := build_query_vector (pySplit (pyLower query))
  (rank_docs e.idf_scores qv e.documents).map sortRanked

/-- Page slices emitted by the module-level `display_results` (the web /
interactive variant): threshold `1.0`, page size `5`,
`num_pages = min(len(filtered_ranking) // 5 + 1, 10)`.  The two "no
matching books" early returns emit no pages; the per-entry string rendering
(original title/author lookup, score formatting) is presentation and is not
modelled — each page is kept as its list of `(doc_id, score)` entries. -/
def display_results_pages (ranking : List (ℤ × ℚ)) : List (List (ℤ × ℚ)) :=
  if ranking.isEmpty then []
  else
    let filtered := ranking.filter fun p => decide ((1 : ℚ) ≤ p.2)
    if filtered.isEmpty then []
    else
      let sorted := sortRanked filtered
      let num_pages := min (filtered.length / 5 + 1) 10
      (List.range num_pages).map fun p => (sorted.drop (p * 5)).take 5

/-- Page slices emitted by `SearchEngine.display_results` (the batch /
reporting variant): parametric threshold and page size,
`num_pages = math.ceil(len(filtered_ranking) / page_size)`, uncapped. -/
def engine_display_pages (ranking : List (ℤ × ℚ)) (threshold : ℚ)
    (page_size : ℕ) : List (List (ℤ × ℚ)) :=
  if ranking.isEmpty then []
  else
    let filtered := ranking.filter fun p => decide (threshold ≤ p.2)
    if filtered.isEmpty then []
    else
      let sorted := sortRanked filtered
      let num_pages := ⌈(filtered.length : ℚ) / (page_size : ℚ)⌉₊
      (List.range num_pages).map fun p => (sorted.drop (p * page_size)).take page_size


/-! ### Concrete instances used by the claim theorems and witnesses -/

/-- The field string a `FieldName` selects from a document. -/
def fieldText (d : Document) : FieldName → PyStr
  | .title => d.title
  | .author => d.author
  | .description => d.description

/-- The last `(term, field)` entry of the index whose term component is `t`,
in the index's iteration (insertion) order. -/
def lastTermEntry (idx : Index) (t : PyStr) : Option ((PyStr × FieldName) × List ℤ) :=
  (idx.filter fun e => decide (e.1.1 = t)).getLast?

/-- The document exhibiting the substring-count defect: normalized fields
`title = "a"`, `author = "aa"`, `description = ""`, so `text = "a aa "`,
whose tokens are `["a", "aa"]` and whose length is 2. -/
def docAAA : Document :=
  { doc_id := 0, title := ['a'], author := ['a', 'a'], description := [] }

/-- An all-empty-fields document: its text is two spaces, so it has no
tokens and `length = 0`. -/
def docE : Document := { doc_id := 0, title := [], author := [], description := [] }

/-- A document whose term `"a"` occurs in two fields with different posting
multiplicities: title `"a"` and author `"a a"`. -/
def docW : Document := { doc_id := 0, title := ['a'], author := ['a', ' ', 'a'], description := [] }

/-- Two empty documents with ids 0 and 1, and an engine over them, used to
instantiate hypotheses of the claims about `SearchEngine.search`. -/
def docP0 : Document := { doc_id := 0, title := [], author := [], description := [] }

def docP1 : Document := { doc_id := 1, title := [], author := [], description := [] }

def engP : SearchEngine := { documents := [docP0, docP1], index := [], idf_scores := [] }

/-- Five qualifying results, all at score 1 (≥ the web threshold 1.0). -/
def rank5 : List (ℤ × ℚ) := [(0, 1), (1, 1), (2, 1), (3, 1), (4, 1)]

/-- Twelve qualifying results, all at score 1. -/
def rank12 : List (ℤ × ℚ) :=
  [(0, 1), (1, 1), (2, 1), (3, 1), (4, 1), (5, 1), (6, 1), (7, 1), (8, 1),
    (9, 1), (10, 1), (11, 1)]

/-- A one-token document whose frequency table is computed from its own
text, as the loader does. -/
def docV0 : Document := { doc_id := 0, title := ['a'], author := [], description := [] }

def docV : Document := { docV0 with term_frequencies := Document.compute_term_frequencies docV0 }

/-! ### Basic lemmas about the dictionary and deduplication models -/

theorem mem_firstDedup {α : Type} [DecidableEq α] {b : α} :
    ∀ {l : List α}, b ∈ firstDedup l ↔ b ∈ l := by
  intro l
  induction l with
  | nil => simp [firstDedup]
  | cons a l ih =>
    by_cases hba : b = a
    · subst hba
      simp [firstDedup]
    · simp [firstDedup, List.mem_filter, hba, ih]

theorem nodup_firstDedup {α : Type} [DecidableEq α] :
    ∀ (l : List α), (firstDedup l).Nodup := by
  intro l
  induction l with
  | nil => simp [firstDedup]
  | cons a l ih =>
    refine List.Nodup.cons ?_ (ih.filter _)
    intro h
    rcases List.mem_filter.1 h with ⟨-, hb⟩
    simp at hb

theorem dlookup_isSome_iff {κ ν : Type} [DecidableEq κ] {m : List (κ × ν)} {k : κ} :
    (dlookup m k).isSome ↔ k ∈ m.map Prod.fst := by
  induction m with
  | nil => simp [dlookup]
  | cons e m ih =>
    by_cases hek : e.1 = k
    · simp [dlookup, hek]
    · simp [dlookup, hek, ih, Ne.symm hek]

theorem dlookup_eq_none_iff {κ ν : Type} [DecidableEq κ] {m : List (κ × ν)} {k : κ} :
    dlookup m k = none ↔ k ∉ m.map Prod.fst := by
  rw [← dlookup_isSome_iff, Option.isSome_iff_ne_none]
  tauto

/-! ### C6: `InvertedIndex.search` deduplicates, and its membership -/

/-- C6: for every index and query string, `InvertedIndex.search` returns a
list with no duplicate ids, and an id is in the result exactly when some
whitespace token of the query has that id in the posting list of at least
one of the three fields. -/
theorem claim_C6_inv_search_dedup (idx : Index) (query : PyStr) :
    (inv_search idx query).Nodup ∧
      ∀ i : ℤ, i ∈ inv_search idx query ↔
        ∃ t ∈ pySplit query,
          i ∈ indexGetD idx (t, .title) ∨ i ∈ indexGetD idx (t, .author) ∨
            i ∈ indexGetD idx (t, .description) := by
  constructor
  · exact nodup_firstDedup _
  · intro i
    rw [inv_search, mem_firstDedup, List.mem_flatMap]
    simp only [List.mem_append, or_assoc]

/-! ### C10: `InvertedIndex.search` leaves the index unchanged -/

theorem inv_search_st_go (idx : Index) (ts : List PyStr) :
    ∀ acc : List ℤ,
      ts.foldl inv_search_step (acc, idx)
      = (acc ++ ts.flatMap fun t =>
          indexGetD idx (t, .title) ++ indexGetD idx (t, .author) ++
            indexGetD idx (t, .description), idx) := by
  induction ts with
  | nil => intro acc; simp
  | cons t ts ih =>
    intro acc
    rw [List.foldl_cons, List.flatMap_cons]
    show ts.foldl inv_search_step
        (acc ++ (indexGetD idx (t, .title) ++ indexGetD idx (t, .author) ++
          indexGetD idx (t, .description)), idx) = _
    rw [ih, List.append_assoc]

/-- C10: for every query string, `InvertedIndex.search` leaves the index
mapping unchanged — every posting-list read goes through `dict.get` with a
default, which inserts nothing — and its value is the one computed from the
unchanged index. -/
theorem claim_C10_inv_search_frame (idx : Index) (query : PyStr) :
    (inv_search_st idx query).2 = idx ∧
      (inv_search_st idx query).1 = inv_search idx query := by
  unfold inv_search_st inv_search
  rw [inv_search_st_go]
  exact ⟨rfl, rfl⟩

/-! ### C1 and C4: what `compute_term_frequencies` actually stores -/

/-- C1 (code bug): on `docAAA` the source stores
`term_frequencies["a"] = text.count("a") / length = 3/2` — `str.count`
counts substring occurrences (3: one in `"a"`, two in `"aa"`) — whereas the
token `"a"` occurs once among the 2 whitespace-delimited tokens, so the
claimed value is `1/2`; consequently `Σ term_frequencies.values() × length`
is 4, not the token count 2. -/
theorem claim_C1_substring_count_bug :
    Document.compute_term_frequencies docAAA =
        [(['a'], (3 : ℚ) / 2), (['a', 'a'], (1 : ℚ) / 2)] ∧
      (pySplit docAAA.text).count ['a'] = 1 ∧
      docAAA.length = 2 ∧
      (3 : ℚ) / 2 ≠ (1 : ℚ) / 2 ∧
      ((Document.compute_term_frequencies docAAA).map Prod.snd).sum *
          (docAAA.length : ℚ) = 4 ∧
      (pySplit docAAA.text).length = 2 := by
  refine ⟨by with_unfolding_all decide, by decide, by decide,
    by with_unfolding_all decide, by with_unfolding_all decide, by decide⟩

/-- C4 (code bug): `docAAA` has positive length, yet the stored frequency of
the token `"a"` is `3/2`, outside the claimed interval `(0, 1]`. -/
theorem claim_C4_tf_exceeds_one :
    0 < docAAA.length ∧
      dlookup (Document.compute_term_frequencies docAAA) ['a'] = some ((3 : ℚ) / 2) ∧
      ¬(3 : ℚ) / 2 ≤ 1 := by
  refine ⟨by decide, by with_unfolding_all decide, by with_unfolding_all decide⟩

/-! ### C8: empty corpus is not guarded -/

/-- C8 (code bug): `SearchEngine.__init__` has no empty-corpus guard and no
error path at all: constructed over zero documents it silently yields an
engine with empty index and empty IDF table (the IDF loop body, the only
place `num_docs` is divided, never runs), and every query returns the empty
ranking rather than any failure. -/
theorem claim_C8_empty_corpus_unguarded :
    mkSearchEngine (fun q => q) [] =
        { documents := [], index := [], idf_scores := [] } ∧
      (mkSearchEngine (fun q => q) []).search ['x'] = some [] ∧
      (mkSearchEngine (fun q => q) []).search [] = some [] := by
  refine ⟨by decide, by decide, by decide⟩

/-! ### The stable score-descending sort -/

theorem insertRanked_perm (x : ℤ × ℚ) :
    ∀ l : List (ℤ × ℚ), (insertRanked x l).Perm (x :: l) := by
  intro l
  induction l with
  | nil => simp [insertRanked]
  | cons y ys ih =>
    rw [insertRanked]
    by_cases hxy : x.2 < y.2
    · simp only [if_pos hxy]
      exact (ih.cons y).trans (List.Perm.swap x y ys)
    · simp [if_neg hxy]

theorem sortRanked_perm : ∀ l : List (ℤ × ℚ), (sortRanked l).Perm l := by
  intro l
  induction l with
  | nil => simp [sortRanked]
  | cons x xs ih => exact (insertRanked_perm x (sortRanked xs)).trans (ih.cons x)

theorem pairwise_insertRanked {x : ℤ × ℚ} :
    ∀ {l : List (ℤ × ℚ)},
      (l.Pairwise fun a b => b.2 < a.2 ∨ (a.2 = b.2 ∧ a.1 < b.1)) →
      (∀ y ∈ l, x.1 < y.1) →
      (insertRanked x l).Pairwise fun a b => b.2 < a.2 ∨ (a.2 = b.2 ∧ a.1 < b.1) := by
  intro l
  induction l with
  | nil => intro _ _; simp [insertRanked]
  | cons y ys ih =>
    intro hl hx
    rw [insertRanked]
    rcases List.pairwise_cons.1 hl with ⟨hy, hys⟩
    by_cases hxy : x.2 < y.2
    · rw [if_pos hxy]
      refine List.pairwise_cons.2 ⟨?_, ih hys fun z hz => hx z (List.mem_cons_of_mem y hz)⟩
      intro z hz
      rcases List.mem_cons.1 (((insertRanked_perm x ys).mem_iff).1 hz) with hzx | hzy
      · subst hzx
        exact Or.inl hxy
      · exact hy z hzy
    · rw [if_neg hxy]
      refine List.pairwise_cons.2 ⟨?_, hl⟩
      intro z hz
      have hxz : x.1 < z.1 := hx z hz
      have hz2 : z.2 ≤ y.2 := by
        rcases List.mem_cons.1 hz with hzy | hzys
        · exact le_of_eq (congrArg Prod.snd hzy)
        · rcases hy z hzys with h | h
          · exact le_of_lt h
          · exact le_of_eq h.1.symm
      have hzx2 : z.2 ≤ x.2 := hz2.trans (le_of_not_lt hxy)
      rcases lt_or_eq_of_le hzx2 with h | h
      · exact Or.inl h
      · exact Or.inr ⟨h.symm, hxz⟩

theorem sortRanked_pairwise :
    ∀ {l : List (ℤ × ℚ)}, (l.Pairwise fun a b => a.1 < b.1) →
      (sortRanked l).Pairwise fun a b => b.2 < a.2 ∨ (a.2 = b.2 ∧ a.1 < b.1) := by
  intro l
  induction l with
  | nil => intro _; simp [sortRanked]
  | cons x xs ih =>
    intro h
    rcases List.pairwise_cons.1 h with ⟨hx, hxs⟩
    exact pairwise_insertRanked (ih hxs) fun y hy =>
      hx y (((sortRanked_perm xs).mem_iff).1 hy)

theorem sortRanked_of_const {c : ℚ} :
    ∀ {l : List (ℤ × ℚ)}, (∀ p ∈ l, p.2 = c) → sortRanked l = l := by
  intro l
  induction l with
  | nil => intro _; rfl
  | cons x xs ih =>
    intro h
    rw [sortRanked, ih fun p hp => h p (List.mem_cons_of_mem x hp)]
    cases xs with
    | nil => rfl
    | cons y ys =>
      rw [insertRanked, if_neg]
      rw [h x (List.mem_cons_self x (y :: ys)),
        h y (List.mem_cons_of_mem x (List.mem_cons_self y ys))]
      exact lt_irrefl c

/-! ### C3: shape of `SearchEngine.search` output -/

theorem rank_docs_nilqv (idf : List (PyStr × ℚ)) :
    ∀ ds : List Document,
      rank_docs idf [] ds = some (ds.map fun d => (d.doc_id, (0 : ℚ))) := by
  intro ds
  induction ds with
  | nil => rfl
  | cons d ds ih => simp [rank_docs, doc_score, ih]

theorem rank_docs_map_fst {idf : List (PyStr × ℚ)} {qv : List (PyStr × ℕ)} :
    ∀ {ds : List Document} {u : List (ℤ × ℚ)},
      rank_docs idf qv ds = some u → u.map Prod.fst = ds.map Document.doc_id := by
  intro ds
  induction ds with
  | nil =>
    intro u h
    simp only [rank_docs, Option.some_inj] at h
    subst h
    rfl
  | cons d ds ih =>
    intro u h
    rw [rank_docs] at h
    cases hds : doc_score idf d qv with
    | none => rw [hds] at h; cases h
    | some s =>
      rw [hds] at h
      rcases Option.map_eq_some'.1 h with ⟨r, hr, rfl⟩
      simp [ih hr]

/-- C3: for any engine whose documents are in ascending-id order (as the
loader assigns ids by `enumerate`), every successful `SearchEngine.search`
returns exactly one `(doc_id, score)` pair per document — the output length
is the document count and the output ids are a permutation of the document
ids, score-0 entries included — sorted by score descending with equal-score
entries in ascending-id order (the stable-sort tie-break); and the empty
query yields every document with score 0 in ascending-id order. -/
theorem claim_C3_search_output (e : SearchEngine)
    (hids : e.documents.Pairwise fun a b => a.doc_id < b.doc_id) :
    (∀ q r, e.search q = some r →
        r.length = e.documents.length ∧
        (r.map Prod.fst).Perm (e.documents.map Document.doc_id) ∧
        r.Pairwise fun a b => b.2 < a.2 ∨ (a.2 = b.2 ∧ a.1 < b.1)) ∧
      e.search [] = some (e.documents.map fun d => (d.doc_id, (0 : ℚ))) := by
  constructor
  · intro q r h
    rw [SearchEngine.search] at h
    rcases Option.map_eq_some'.1 h with ⟨u, hu, rfl⟩
    have hfst : u.map Prod.fst = e.documents.map Document.doc_id :=
      rank_docs_map_fst hu
    have hperm : (sortRanked u).Perm u := sortRanked_perm u
    refine ⟨?_, ?_, ?_⟩
    · have hlen : u.length = e.documents.length := by
        have := congrArg List.length hfst
        simpa using this
      exact hperm.length_eq.trans hlen
    · rw [← hfst]
      exact hperm.map Prod.fst
    · have h1 : (e.documents.map Document.doc_id).Pairwise (· < ·) :=
        List.pairwise_map.2 hids
      rw [← hfst] at h1
      exact sortRanked_pairwise (List.pairwise_map.1 h1)
  · rw [SearchEngine.search]
    rw [show build_query_vector (pySplit (pyLower ([] : PyStr))) = [] from rfl]
    rw [rank_docs_nilqv, Option.map_some']
    rw [sortRanked_of_const (c := 0) ?_]
    intro p hp
    rcases List.mem_map.1 hp with ⟨d, -, rfl⟩
    rfl

/-- Witness for C3 at a concrete two-document engine. -/
theorem claim_C3_search_output_witness :
    (engP.documents.Pairwise fun a b => a.doc_id < b.doc_id) ∧
      ((∀ q r, engP.search q = some r →
          r.length = engP.documents.length ∧
          (r.map Prod.fst).Perm (engP.documents.map Document.doc_id) ∧
          r.Pairwise fun a b => b.2 < a.2 ∨ (a.2 = b.2 ∧ a.1 < b.1)) ∧
        engP.search [] = some (engP.documents.map fun d => (d.doc_id, (0 : ℚ)))) :=
  ⟨by decide, claim_C3_search_output engP (by decide)⟩

/-! ### C7: a document with empty normalized text -/

theorem doc_score_empty_tf {d : Document} (htf : d.term_frequencies = [])
    (idf : List (PyStr × ℚ)) (qv : List (PyStr × ℕ)) :
    doc_score idf d qv = some 0 := by
  rw [doc_score]
  have hgen : ∀ (qv : List (PyStr × ℕ)) (s : ℚ),
      qv.foldl
        (fun acc tc =>
          acc.bind fun s' =>
            match dlookup d.term_frequencies tc.1 with
            | none => some s'
            | some tf => (dlookup idf tc.1).map fun idfv => s' + tf * idfv * (1 + (tc.2 : ℚ)))
        (some s) = some s := by
    intro qv
    induction qv with
    | nil => intro s; rfl
    | cons tc qv ih =>
      intro s
      rw [List.foldl_cons]
      have hstep : dlookup d.term_frequencies tc.1 = none := by
        rw [htf]; rfl
      simp only [hstep, Option.bind_some]
      exact ih s
  exact hgen qv 0

theorem rank_docs_mem {idf : List (PyStr × ℚ)} {qv : List (PyStr × ℕ)} :
    ∀ {ds : List Document} {u : List (ℤ × ℚ)},
      rank_docs idf qv ds = some u →
      ∀ d ∈ ds, ∀ s, doc_score idf d qv = some s → (d.doc_id, s) ∈ u := by
  intro ds
  induction ds with
  | nil => intro u _ d hd; cases hd
  | cons d' ds ih =>
    intro u h d hd s hs
    rw [rank_docs] at h
    cases hds : doc_score idf d' qv with
    | none => rw [hds] at h; cases h
    | some s' =>
      rw [hds] at h
      rcases Option.map_eq_some'.1 h with ⟨r, hr, rfl⟩
      rcases List.mem_cons.1 hd with rfl | hdm
      · have : s = s' := by rw [hds] at hs; exact (Option.some_inj.1 hs).symm
        subst this
        exact List.mem_cons_self _ _
      · exact List.mem_cons_of_mem _ (ih hr d hdm s hs)

/-- C7: a document whose normalized text is empty (`length == 0`) never
reaches the division in `compute_term_frequencies` — the token set is empty,
so the stored table is empty — and such a document scores exactly 0 for
every query, both in the per-document loop and as its `(doc_id, 0)` entry of
every successful `SearchEngine.search` ranking. -/
theorem claim_C7_degenerate_document (d : Document) (hlen : d.length = 0) :
    Document.compute_term_frequencies d = [] ∧
      (d.term_frequencies = Document.compute_term_frequencies d →
        (∀ idf qv, doc_score idf d qv = some 0) ∧
          ∀ (e : SearchEngine) (q : PyStr) (r : List (ℤ × ℚ)),
            d ∈ e.documents → e.search q = some r → (d.doc_id, (0 : ℚ)) ∈ r) := by
  rw [Document.length] at hlen
  have htoks : pySplit d.text = [] := List.length_eq_zero.1 hlen
  have hcomp : Document.compute_term_frequencies d = [] := by
    rw [Document.compute_term_frequencies, htoks]
    rfl
  refine ⟨hcomp, fun htf => ⟨?_, ?_⟩⟩
  · intro idf qv
    exact doc_score_empty_tf (htf.trans hcomp) idf qv
  · intro e q r hd hr
    rw [SearchEngine.search] at hr
    rcases Option.map_eq_some'.1 hr with ⟨u, hu, rfl⟩
    have hmem : (d.doc_id, (0 : ℚ)) ∈ u :=
      rank_docs_mem hu d hd 0 (doc_score_empty_tf (htf.trans hcomp) _ _)
    exact ((sortRanked_perm u).mem_iff).2 hmem

/-- Witness for C7 at the concrete empty document. -/
theorem claim_C7_degenerate_document_witness :
    docE.length = 0 ∧
      (Document.compute_term_frequencies docE = [] ∧
        (docE.term_frequencies = Document.compute_term_frequencies docE →
          (∀ idf qv, doc_score idf docE qv = some 0) ∧
            ∀ (e : SearchEngine) (q : PyStr) (r : List (ℤ × ℚ)),
              docE ∈ e.documents → e.search q = some r → (docE.doc_id, (0 : ℚ)) ∈ r)) :=
  ⟨by decide, claim_C7_degenerate_document docE (by decide)⟩

/-! ### C5: pagination of the two result presenters -/

theorem isEmpty_false_of_ne_nil {α : Type} {l : List α} (h : l ≠ []) :
    l.isEmpty = false := by
  cases l with
  | nil => exact absurd rfl h
  | cons a l => rfl

/-- C5 counterexample: with 5 qualifying results the interactive variant
emits 2 pages (`5 // 5 + 1`), the second empty, not
`ceil(5 / 5) = 1` pages as the claim states. -/
theorem claim_C5_counterexample :
    (rank5.filter fun p => decide ((1 : ℚ) ≤ p.2)).length = 5 ∧
      (display_results_pages rank5).length = 2 ∧
      (display_results_pages rank5).map List.length = [5, 0] ∧
      ¬(display_results_pages rank5).length
          = ⌈((rank5.filter fun p => decide ((1 : ℚ) ≤ p.2)).length : ℚ) / (5 : ℚ)⌉₊ := by
  refine ⟨by with_unfolding_all decide, by with_unfolding_all decide,
    by with_unfolding_all decide, by with_unfolding_all decide⟩

/-- C5 as amended: for every ranking whose threshold-filtered list is
non-empty, the interactive (web) variant emits
`min(filtered_count // 5 + 1, 10)` pages — one more than
`ceil(filtered_count / 5)` whenever 5 divides the count, the extra page
empty — while the batch variant (`SearchEngine.display_results`) emits
`ceil(filtered_count / page_size)` pages, uncapped; with page size 5 and 12
qualifying results the interactive variant emits exactly 3 pages whose entry
counts are 5, 5 and 2. -/
theorem claim_C5_amended_pagination (ranking : List (ℤ × ℚ)) :
    ((ranking.filter fun p => decide ((1 : ℚ) ≤ p.2)) ≠ [] →
      (display_results_pages ranking).length
          = min ((ranking.filter fun p => decide ((1 : ℚ) ≤ p.2)).length / 5 + 1) 10 ∧
        ((ranking.filter fun p => decide ((1 : ℚ) ≤ p.2)).length = 12 →
          (display_results_pages ranking).map List.length = [5, 5, 2])) ∧
      ∀ (t : ℚ) (ps : ℕ),
        (ranking.filter fun x => decide (t ≤ x.2)) ≠ [] →
        (engine_display_pages ranking t ps).length
          = ⌈((ranking.filter fun x => decide (t ≤ x.2)).length : ℚ) / (ps : ℚ)⌉₊ := by
  constructor
  · intro hne
    have hrk : ranking.isEmpty = false := by
      apply isEmpty_false_of_ne_nil
      intro hnil
      exact hne (by rw [hnil]; rfl)
    have hfe : (ranking.filter fun p => decide ((1 : ℚ) ≤ p.2)).isEmpty = false :=
      isEmpty_false_of_ne_nil hne
    constructor
    · simp only [display_results_pages, hrk, hfe, Bool.false_eq_true, if_false,
        List.length_map, List.length_range]
    · intro h12
      have hsl : (sortRanked (ranking.filter fun p => decide ((1 : ℚ) ≤ p.2))).length = 12 :=
        (sortRanked_perm _).length_eq.trans h12
      simp only [display_results_pages, hrk, hfe, Bool.false_eq_true, if_false, h12]
      rw [show min (12 / 5 + 1) 10 = 3 from rfl,
        show List.range 3 = [0, 1, 2] from rfl]
      simp [List.length_take, hsl]
  · intro t ps hne
    have hrk : ranking.isEmpty = false := by
      apply isEmpty_false_of_ne_nil
      intro hnil
      exact hne (by rw [hnil]; rfl)
    have hfe : (ranking.filter fun x => decide (t ≤ x.2)).isEmpty = false :=
      isEmpty_false_of_ne_nil hne
    simp only [engine_display_pages, hrk, hfe, Bool.false_eq_true, if_false,
      List.length_map, List.length_range]

/-- Witness for C5's amended statement at the 12-result ranking. -/
theorem claim_C5_amended_pagination_witness :
    ((rank12.filter fun p => decide ((1 : ℚ) ≤ p.2)) ≠ []) ∧
      (display_results_pages rank12).length = 3 ∧
      (display_results_pages rank12).map List.length = [5, 5, 2] ∧
      (engine_display_pages rank12 1 5).length
        = ⌈((rank12.filter fun x => decide ((1 : ℚ) ≤ x.2)).length : ℚ) / (5 : ℚ)⌉₊ := by
  have h := claim_C5_amended_pagination rank12
  have hne : (rank12.filter fun p => decide ((1 : ℚ) ≤ p.2)) ≠ [] := by
    with_unfolding_all decide
  have h12 : (rank12.filter fun p => decide ((1 : ℚ) ≤ p.2)).length = 12 := by
    with_unfolding_all decide
  refine ⟨hne, ?_, (h.1 hne).2 h12, h.2 1 5 hne⟩
  rw [(h.1 hne).1, h12]
  decide

/-! ### C2: the IDF table, last field processed wins -/

theorem dlookup_dictInsert {κ ν : Type} [DecidableEq κ] {k k' : κ} {v : ν} :
    ∀ {m : List (κ × ν)},
      dlookup (dictInsert m k v) k' = if k = k' then some v else dlookup m k' := by
  intro m
  induction m with
  | nil =>
    by_cases hk : k = k' <;> simp [dictInsert, dlookup, hk]
  | cons e m ih =>
    simp only [dictInsert]
    by_cases he : e.1 = k
    · rw [if_pos he]
      simp only [dlookup]
      by_cases hk : k = k'
      · simp [hk]
      · have h1 : ¬e.1 = k' := fun h => hk (he.symm.trans h)
        simp [hk, h1]
    · rw [if_neg he]
      simp only [dlookup, ih]
      by_cases hek : e.1 = k'
      · have h1 : ¬k = k' := fun h => he (by rw [h]; exact hek)
        simp [hek, h1]
      · simp [hek]

theorem mem_keys_dictInsert {κ ν : Type} [DecidableEq κ] {k k' : κ} {v : ν} :
    ∀ {m : List (κ × ν)},
      k' ∈ (dictInsert m k v).map Prod.fst ↔ k' = k ∨ k' ∈ m.map Prod.fst := by
  intro m
  induction m with
  | nil => simp [dictInsert]
  | cons e m ih =>
    by_cases he : e.1 = k
    · subst he
      simp [dictInsert]
    · simp only [dictInsert, if_neg he, List.map_cons, List.mem_cons, ih]
      tauto

theorem keys_nodup_dictInsert {κ ν : Type} [DecidableEq κ] {k : κ} {v : ν} :
    ∀ {m : List (κ × ν)}, (m.map Prod.fst).Nodup →
      ((dictInsert m k v).map Prod.fst).Nodup := by
  intro m
  induction m with
  | nil => intro _; simp [dictInsert]
  | cons e m ih =>
    intro h
    rw [List.map_cons, List.nodup_cons] at h
    by_cases he : e.1 = k
    · rw [show dictInsert (e :: m) k v = (k, v) :: m from by rw [dictInsert, if_pos he]]
      rw [List.map_cons, List.nodup_cons]
      exact ⟨he ▸ h.1, h.2⟩
    · rw [show dictInsert (e :: m) k v = e :: dictInsert m k v from by
        rw [dictInsert, if_neg he]]
      rw [List.map_cons, List.nodup_cons]
      refine ⟨?_, ih h.2⟩
      rw [mem_keys_dictInsert]
      rintro (h1 | h2)
      · exact he h1
      · exact h.1 h2

theorem idf_fold_lookup (lg : ℚ → ℚ) (N : ℕ) (t : PyStr) :
    ∀ (idx : Index) (m0 : List (PyStr × ℚ)),
      dlookup
          (idx.foldl
            (fun m e => dictInsert m (pyLower e.1.1) (lg ((N : ℚ) / (1 + (e.2.length : ℚ)))))
            m0) t
        = match (idx.filter fun e => decide (pyLower e.1.1 = t)).getLast? with
          | some e => some (lg ((N : ℚ) / (1 + (e.2.length : ℚ))))
          | none => dlookup m0 t := by
  intro idx
  induction idx using List.reverseRecOn with
  | nil => intro m0; rfl
  | append_singleton xs x ih =>
    intro m0
    rw [List.foldl_append, List.foldl_cons, List.foldl_nil, dlookup_dictInsert,
      List.filter_append]
    by_cases hx : pyLower x.1.1 = t
    · rw [if_pos hx]
      have : (xs.filter fun e => decide (pyLower e.1.1 = t)) ++
          ([x].filter fun e => decide (pyLower e.1.1 = t))
          = (xs.filter fun e => decide (pyLower e.1.1 = t)) ++ [x] := by
        simp [List.filter, hx]
      rw [this, List.getLast?_append]
      rfl
    · rw [if_neg hx]
      have : ([x].filter fun e => decide (pyLower e.1.1 = t)) = [] := by
        simp [List.filter, hx]
      rw [this, List.append_nil, ih]

theorem idf_fold_keys_nodup (lg : ℚ → ℚ) (N : ℕ) :
    ∀ (idx : Index) (m0 : List (PyStr × ℚ)), (m0.map Prod.fst).Nodup →
      ((idx.foldl
          (fun m e => dictInsert m (pyLower e.1.1) (lg ((N : ℚ) / (1 + (e.2.length : ℚ)))))
          m0).map Prod.fst).Nodup := by
  intro idx
  induction idx with
  | nil => intro m0 h; exact h
  | cons e idx ih =>
    intro m0 h
    rw [List.foldl_cons]
    exact ih _ (keys_nodup_dictInsert h)

/-- C2: in the engine built by `SearchEngine(documents)` — whose index terms
are all lowercase, as the normalization pipeline guarantees — the IDF table
holds exactly one value per term (its keys are duplicate-free), and the
value stored for a term is `lg(N / (1 + df))` where `N` is the document
count and `df` is the length of the posting list of the `(term, field)`
entry processed *last* for that term in the index iteration: the last field
processed wins. -/
theorem claim_C2_idf_last_field_wins (lg : ℚ → ℚ) (docs : List Document)
    (hlow : ∀ en ∈ (mkSearchEngine lg docs).index, pyLower en.1.1 = en.1.1) :
    (((mkSearchEngine lg docs).idf_scores).map Prod.fst).Nodup ∧
      ∀ t v, dlookup (mkSearchEngine lg docs).idf_scores t = some v →
        ∃ en, lastTermEntry (mkSearchEngine lg docs).index t = some en ∧
          v = lg ((docs.length : ℚ) / (1 + (en.2.length : ℚ))) := by
  constructor
  · exact idf_fold_keys_nodup lg docs.length (index_data docs) [] List.nodup_nil
  · intro t v hv
    have hfil : ((index_data docs).filter fun e => decide (pyLower e.1.1 = t))
        = (index_data docs).filter fun e => decide (e.1.1 = t) :=
      List.filter_congr fun e he => by rw [hlow e he]
    have h := idf_fold_lookup lg docs.length t (index_data docs) []
    rw [hfil] at h
    have hv' := hv
    rw [show (mkSearchEngine lg docs).idf_scores
        = compute_idf_scores lg docs.length (index_data docs) from rfl] at hv'
    rw [compute_idf_scores, h] at hv'
    rcases hlast : ((index_data docs).filter fun e => decide (e.1.1 = t)).getLast? with
      _ | en
    · rw [hlast] at hv'
      cases hv'
    · rw [hlast] at hv'
      exact ⟨en, hlast, (Option.some_inj.1 hv').symm⟩

/-- Witness for C2 at a one-document engine whose term `"a"` is indexed in
two fields, with `lg` the identity. -/
theorem claim_C2_idf_last_field_wins_witness :
    (∀ en ∈ (mkSearchEngine (fun q => q) [docW]).index, pyLower en.1.1 = en.1.1) ∧
      ((((mkSearchEngine (fun q => q) [docW]).idf_scores).map Prod.fst).Nodup ∧
        ∀ t v, dlookup (mkSearchEngine (fun q => q) [docW]).idf_scores t = some v →
          ∃ en, lastTermEntry (mkSearchEngine (fun q => q) [docW]).index t = some en ∧
            v = (fun q => q) (((([docW] : List Document).length : ℕ) : ℚ) / (1 + (en.2.length : ℚ)))) :=
  ⟨by with_unfolding_all decide,
    claim_C2_idf_last_field_wins (fun q => q) [docW] (by with_unfolding_all decide)⟩

/-! ### Tokenization lemmas for C9 -/

theorem pySplitGo_append_space (b : PyStr) :
    ∀ (a : PyStr) (cur : PyStr),
      pySplitGo cur (a ++ ' ' :: b) = pySplitGo cur a ++ pySplitGo [] b := by
  intro a
  induction a with
  | nil =>
    intro cur
    show pySplitGo cur (' ' :: b) = pySplitGo cur [] ++ pySplitGo [] b
    rw [pySplitGo, pySplitGo]
    rw [if_pos (show isWs ' ' = true from rfl)]
    by_cases hc : cur.isEmpty
    · rw [if_pos hc, if_pos hc, List.nil_append]
    · rw [if_neg hc, if_neg hc, List.cons_append, List.nil_append]
  | cons c a ih =>
    intro cur
    show pySplitGo cur (c :: (a ++ ' ' :: b)) = pySplitGo cur (c :: a) ++ pySplitGo [] b
    rw [pySplitGo, pySplitGo]
    by_cases hws : isWs c
    · rw [if_pos hws, if_pos hws]
      by_cases hc : cur.isEmpty
      · rw [if_pos hc, if_pos hc, ih]
      · rw [if_neg hc, if_neg hc, ih, List.cons_append]
    · rw [if_neg hws, if_neg hws, ih]

theorem pySplit_append_space (a b : PyStr) :
    pySplit (a ++ ' ' :: b) = pySplit a ++ pySplit b :=
  pySplitGo_append_space b a []

/-- The tokens of `text = ' '.join([title, author, description])` are the
tokens of the three fields, in order. -/
theorem pySplit_text (d : Document) :
    pySplit d.text = pySplit d.title ++ pySplit d.author ++ pySplit d.description := by
  rw [Document.text, pySplit_append_space, pySplit_append_space, List.append_assoc]

theorem mem_of_mem_pySplitGo :
    ∀ (s : PyStr) (cur : PyStr) (t : PyStr), t ∈ pySplitGo cur s →
      ∀ c ∈ t, c ∈ cur ∨ c ∈ s := by
  intro s
  induction s with
  | nil =>
    intro cur t ht c hc
    rw [pySplitGo] at ht
    by_cases hcur : cur.isEmpty
    · rw [if_pos hcur] at ht
      cases ht
    · rw [if_neg hcur] at ht
      rcases List.mem_singleton.1 ht with rfl
      exact Or.inl (List.mem_reverse.1 hc)
  | cons d s ih =>
    intro cur t ht c hc
    rw [pySplitGo] at ht
    by_cases hws : isWs d
    · rw [if_pos hws] at ht
      by_cases hcur : cur.isEmpty
      · rw [if_pos hcur] at ht
        rcases ih [] t ht c hc with h | h
        · cases h
        · exact Or.inr (List.mem_cons_of_mem d h)
      · rw [if_neg hcur] at ht
        rcases List.mem_cons.1 ht with rfl | ht'
        · exact Or.inl (List.mem_reverse.1 hc)
        · rcases ih [] t ht' c hc with h | h
          · cases h
          · exact Or.inr (List.mem_cons_of_mem d h)
    · rw [if_neg hws] at ht
      rcases ih (d :: cur) t ht c hc with h | h
      · rcases List.mem_cons.1 h with rfl | h'
        · exact Or.inr (List.mem_cons_self _ _)
        · exact Or.inl h'
      · exact Or.inr (List.mem_cons_of_mem d h)

theorem mem_of_mem_pySplit {s t : PyStr} (ht : t ∈ pySplit s) :
    ∀ c ∈ t, c ∈ s := by
  intro c hc
  rcases mem_of_mem_pySplitGo s [] t ht c hc with h | h
  · cases h
  · exact h

/-! ### Case-folding lemmas for C9 -/

theorem charOfNat_toNat {n : ℕ} (h : n.isValidChar) : (Char.ofNat n).toNat = n := by
  simp [Char.ofNat, h, Char.ofNatAux, Char.toNat, UInt32.toNat]

theorem toLower_idem (c : Char) : (Char.toLower c).toLower = Char.toLower c := by
  simp only [Char.toLower]
  by_cases h : c.toNat ≥ 65 ∧ c.toNat ≤ 90
  · rw [if_pos h]
    have hv : (c.toNat + 32).isValidChar := Or.inl (by omega)
    rw [charOfNat_toNat hv, if_neg (by omega)]
  · rw [if_neg h, if_neg h]

theorem pyLower_fixed_of_mem {t q : PyStr} (ht : t ∈ pySplit (pyLower q)) :
    pyLower t = t := by
  have hfix : ∀ c ∈ t, Char.toLower c = c := by
    intro c hc
    have hcq : c ∈ pyLower q := mem_of_mem_pySplit ht c hc
    rcases List.mem_map.1 hcq with ⟨c', -, rfl⟩
    exact toLower_idem c'
  calc pyLower t = t.map id := List.map_congr_left hfix
    _ = t := List.map_id t

/-! ### Index and IDF key membership for C9 -/

theorem mem_keys_ddAppend_of {κ : Type} [DecidableEq κ] {k' k : κ} {i : ℤ} :
    ∀ {m : List (κ × List ℤ)}, k' ∈ m.map Prod.fst →
      k' ∈ (ddAppend m k i).map Prod.fst := by
  intro m
  induction m with
  | nil => intro h; cases h
  | cons e m ih =>
    intro h
    rw [ddAppend]
    by_cases he : e.1 = k
    · rw [if_pos he]
      simpa using h
    · rw [if_neg he, List.map_cons]
      rcases List.mem_cons.1 h with h1 | h2
      · exact List.mem_cons.2 (Or.inl h1)
      · exact List.mem_cons.2 (Or.inr (ih h2))

theorem self_mem_keys_ddAppend {κ : Type} [DecidableEq κ] (k : κ) (i : ℤ) :
    ∀ (m : List (κ × List ℤ)), k ∈ (ddAppend m k i).map Prod.fst := by
  intro m
  induction m with
  | nil => simp [ddAppend]
  | cons e m ih =>
    rw [ddAppend]
    by_cases he : e.1 = k
    · rw [if_pos he, List.map_cons, he]
      exact List.mem_cons_self _ _
    · rw [if_neg he, List.map_cons]
      exact List.mem_cons_of_mem _ ih

theorem mem_keys_add_tokens_of {b : ℤ} {f : FieldName} {k' : PyStr × FieldName} :
    ∀ (toks : List PyStr) (idx : Index), k' ∈ idx.map Prod.fst →
      k' ∈ (add_tokens_to_index idx b toks f).map Prod.fst := by
  intro toks
  induction toks with
  | nil => intro idx h; exact h
  | cons t toks ih =>
    intro idx h
    rw [add_tokens_to_index, List.foldl_cons]
    exact ih _ (mem_keys_ddAppend_of h)

theorem mem_keys_add_tokens_self {b : ℤ} {f : FieldName} {t : PyStr} :
    ∀ {toks : List PyStr} (idx : Index), t ∈ toks →
      (t, f) ∈ (add_tokens_to_index idx b toks f).map Prod.fst := by
  intro toks
  induction toks with
  | nil => intro idx h; cases h
  | cons t' toks ih =>
    intro idx h
    rw [add_tokens_to_index, List.foldl_cons]
    rcases List.mem_cons.1 h with rfl | h2
    · exact mem_keys_add_tokens_of toks _ (self_mem_keys_ddAppend (t, f) b idx)
    · exact ih _ h2

theorem mem_keys_index_doc_step_of {k' : PyStr × FieldName} {idx : Index}
    {d : Document} (h : k' ∈ idx.map Prod.fst) :
    k' ∈ (index_doc_step idx d).map Prod.fst :=
  mem_keys_add_tokens_of _ _ (mem_keys_add_tokens_of _ _ (mem_keys_add_tokens_of _ _ h))

theorem mem_keys_index_doc_step_self {t : PyStr} {f : FieldName} {idx : Index}
    {d : Document} (ht : t ∈ pySplit (fieldText d f)) :
    (t, f) ∈ (index_doc_step idx d).map Prod.fst := by
  cases f with
  | title =>
    exact mem_keys_add_tokens_of _ _ (mem_keys_add_tokens_of _ _
      (mem_keys_add_tokens_self _ ht))
  | author =>
    exact mem_keys_add_tokens_of _ _ (mem_keys_add_tokens_self _ ht)
  | description =>
    exact mem_keys_add_tokens_self _ ht

theorem mem_keys_index_foldl_of {k' : PyStr × FieldName} :
    ∀ (docs : List Document) (idx : Index), k' ∈ idx.map Prod.fst →
      k' ∈ (docs.foldl index_doc_step idx).map Prod.fst := by
  intro docs
  induction docs with
  | nil => intro idx h; exact h
  | cons d docs ih =>
    intro idx h
    rw [List.foldl_cons]
    exact ih _ (mem_keys_index_doc_step_of h)

theorem key_in_index_data {t : PyStr} {f : FieldName} {d : Document} :
    ∀ {docs : List Document}, d ∈ docs → t ∈ pySplit (fieldText d f) →
      (t, f) ∈ (index_data docs).map Prod.fst := by
  have hgen : ∀ (docs : List Document) (idx : Index), d ∈ docs →
      t ∈ pySplit (fieldText d f) →
      (t, f) ∈ (docs.foldl index_doc_step idx).map Prod.fst := by
    intro docs
    induction docs with
    | nil => intro idx h; cases h
    | cons d' docs ih =>
      intro idx hd ht
      rw [List.foldl_cons]
      rcases List.mem_cons.1 hd with rfl | hd'
      · exact mem_keys_index_foldl_of docs _ (mem_keys_index_doc_step_self ht)
      · exact ih _ hd' ht
  intro docs hd ht
  exact hgen docs [] hd ht

theorem idf_keys_monotone (lg : ℚ → ℚ) (N : ℕ) {k : PyStr} :
    ∀ (idx : Index) (m0 : List (PyStr × ℚ)), k ∈ m0.map Prod.fst →
      k ∈ ((idx.foldl
        (fun m e => dictInsert m (pyLower e.1.1) (lg ((N : ℚ) / (1 + (e.2.length : ℚ)))))
        m0).map Prod.fst) := by
  intro idx
  induction idx with
  | nil => intro m0 h; exact h
  | cons e idx ih =>
    intro m0 h
    rw [List.foldl_cons]
    exact ih _ (mem_keys_dictInsert.2 (Or.inr h))

theorem idf_key_of_entry (lg : ℚ → ℚ) (N : ℕ) {e0 : (PyStr × FieldName) × List ℤ} :
    ∀ (idx : Index) (m0 : List (PyStr × ℚ)), e0 ∈ idx →
      pyLower e0.1.1 ∈ ((idx.foldl
        (fun m e => dictInsert m (pyLower e.1.1) (lg ((N : ℚ) / (1 + (e.2.length : ℚ)))))
        m0).map Prod.fst) := by
  intro idx
  induction idx with
  | nil => intro m0 h; cases h
  | cons e idx ih =>
    intro m0 h
    rw [List.foldl_cons]
    rcases List.mem_cons.1 h with rfl | h2
    · exact idf_keys_monotone lg N idx _ (mem_keys_dictInsert.2 (Or.inl rfl))
    · exact ih _ h2

theorem idf_key_of_index_key (lg : ℚ → ℚ) (N : ℕ) {t : PyStr} {f : FieldName}
    {idx : Index} (h : (t, f) ∈ idx.map Prod.fst) :
    pyLower t ∈ (compute_idf_scores lg N idx).map Prod.fst := by
  rcases List.mem_map.1 h with ⟨e0, he0, hfst⟩
  rw [compute_idf_scores]
  have := idf_key_of_entry lg N idx [] he0
  rw [hfst] at this
  exact this

/-! ### C9: the IDF subscript in `SearchEngine.search` cannot raise -/

theorem mem_tokens_of_tf_key {d : Document} {k : PyStr}
    (h : (dlookup (Document.compute_term_frequencies d) k).isSome) :
    k ∈ pySplit d.text := by
  rw [dlookup_isSome_iff, Document.compute_term_frequencies, List.map_map] at h
  have : k ∈ firstDedup (pySplit d.text) := by simpa using h
  exact mem_firstDedup.1 this

theorem doc_score_isSome {idf : List (PyStr × ℚ)} {d : Document}
    {qv : List (PyStr × ℕ)}
    (h : ∀ tc ∈ qv, (dlookup d.term_frequencies tc.1).isSome →
      (dlookup idf tc.1).isSome) :
    ∃ s, doc_score idf d qv = some s := by
  rw [doc_score]
  have hgen : ∀ (qv' : List (PyStr × ℕ)),
      (∀ tc ∈ qv', (dlookup d.term_frequencies tc.1).isSome →
        (dlookup idf tc.1).isSome) →
      ∀ s0 : ℚ, ∃ s,
        qv'.foldl
          (fun acc tc =>
            acc.bind fun s' =>
              match dlookup d.term_frequencies tc.1 with
              | none => some s'
              | some tf => (dlookup idf tc.1).map fun idfv =>
                  s' + tf * idfv * (1 + (tc.2 : ℚ)))
          (some s0) = some s := by
    intro qv'
    induction qv' with
    | nil => intro _ s0; exact ⟨s0, rfl⟩
    | cons tc qv' ih =>
      intro hq s0
      rw [List.foldl_cons]
      cases htf : dlookup d.term_frequencies tc.1 with
      | none =>
        simp only [htf, Option.bind_some]
        exact ih (fun tc' h' => hq tc' (List.mem_cons_of_mem tc h')) s0
      | some tfv =>
        have hidf : (dlookup idf tc.1).isSome :=
          hq tc (List.mem_cons_self _ _) (by rw [htf]; rfl)
        rcases Option.isSome_iff_exists.1 hidf with ⟨idfv, hidfv⟩
        simp only [htf, hidfv, Option.bind_some, Option.map_some']
        exact ih (fun tc' h' => hq tc' (List.mem_cons_of_mem tc h')) _
  exact hgen qv h 0

theorem rank_docs_isSome {idf : List (PyStr × ℚ)} {qv : List (PyStr × ℕ)} :
    ∀ {ds : List Document}, (∀ d ∈ ds, ∃ s, doc_score idf d qv = some s) →
      ∃ u, rank_docs idf qv ds = some u := by
  intro ds
  induction ds with
  | nil => intro _; exact ⟨[], rfl⟩
  | cons d ds ih =>
    intro h
    rcases h d (List.mem_cons_self _ _) with ⟨s, hs⟩
    rcases ih (fun d' hd' => h d' (List.mem_cons_of_mem d hd')) with ⟨u, hu⟩
    exact ⟨(d.doc_id, s) :: u, by simp only [rank_docs, hs, hu, Option.map_some']⟩

/-- C9: for every engine built by `SearchEngine(documents)` over documents
whose `term_frequencies` were computed from their own text, `search` never
raises a `KeyError` at `self.idf_scores[term]`: whenever a lowercased query
term passes the `term in doc.term_frequencies` guard it is a token of that
document's text, hence a term of some `(term, field)` posting list of the
index, hence its lowercased form — itself — is a key of the IDF table; so
the search always returns a ranking (`some`, never the raising `none`). -/
theorem claim_C9_idf_lookup_total (lg : ℚ → ℚ) (docs : List Document)
    (htf : ∀ d ∈ docs, d.term_frequencies = Document.compute_term_frequencies d)
    (q : PyStr) :
    ∃ r, (mkSearchEngine lg docs).search q = some r := by
  have hrank : ∃ u, rank_docs (mkSearchEngine lg docs).idf_scores
      (build_query_vector (pySplit (pyLower q))) docs = some u := by
    apply rank_docs_isSome
    intro d hd
    apply doc_score_isSome
    intro tc htc hsome
    have htq : tc.1 ∈ pySplit (pyLower q) := by
      rcases List.mem_map.1 htc with ⟨t, htq, rfl⟩
      exact mem_firstDedup.1 htq
    have hfix : pyLower tc.1 = tc.1 := pyLower_fixed_of_mem htq
    rw [htf d hd] at hsome
    have htok : tc.1 ∈ pySplit d.text := mem_tokens_of_tf_key hsome
    rw [pySplit_text] at htok
    have hfield : ∃ f, tc.1 ∈ pySplit (fieldText d f) := by
      rcases List.mem_append.1 htok with h1 | h2
      · rcases List.mem_append.1 h1 with ht | ha
        · exact ⟨.title, ht⟩
        · exact ⟨.author, ha⟩
      · exact ⟨.description, h2⟩
    rcases hfield with ⟨f, hf⟩
    have hkey : (tc.1, f) ∈ (index_data docs).map Prod.fst :=
      key_in_index_data hd hf
    have hidfkey : pyLower tc.1 ∈
        (compute_idf_scores lg docs.length (index_data docs)).map Prod.fst :=
      idf_key_of_index_key lg docs.length hkey
    rw [hfix] at hidfkey
    exact dlookup_isSome_iff.2 hidfkey
  rcases hrank with ⟨u, hu⟩
  refine ⟨sortRanked u, ?_⟩
  rw [SearchEngine.search,
    show (mkSearchEngine lg docs).documents = docs from rfl, hu, Option.map_some']

/-- Witness for C9 at a concrete one-document engine and the query `"a"`. -/
theorem claim_C9_idf_lookup_total_witness :
    (∀ d ∈ [docV], d.term_frequencies = Document.compute_term_frequencies d) ∧
      ∃ r, (mkSearchEngine (fun x => x) [docV]).search ['a'] = some r :=
  ⟨by with_unfolding_all decide,
    claim_C9_idf_lookup_total (fun x => x) [docV]
      (by with_unfolding_all decide) ['a']⟩
